import Mathlib

/-!
Verification of the diarization post-processing pipeline of
recipes/AMI/Diarization/experiment.py: the agglomerative cluster traceback,
the same-speaker merge pass, the overlap-redistribution pass and the RTTM
writer.  Times are modelled as exact rationals; Python lists of
[rec_id, sseg_start, sseg_end, spkr_id] become the structure SSeg; functions
that can raise (IndexError on an empty list, NameError on an unbound loop
variable, KeyError on a missing dictionary key) return Option.
-/

/-- A sub-segment [rec_id, sseg_start, sseg_end, spkr_id].  The field stop
models the Python index 2 (the end time; end is a Lean keyword). -/
structure SSeg where
  recId : String
  start : ℚ
  stop : ℚ
  spk : String
deriving DecidableEq, Repr

/-- is_overlapped(end1, start2): False when start2 > end1, True otherwise. -/
def is_overlapped (end1 start2 : ℚ) : Bool :=
  if start2 > end1 then false else true

/-- The loop of merge_ssegs_same_speaker: sseg is the current accumulator;
on overlap with the same speaker the accumulator's end time is replaced by
the next segment's end time, otherwise the accumulator is appended and the
next segment becomes the accumulator.  The final accumulator is NOT
appended, exactly as in the source. -/
def mergeLoop (sseg : SSeg) : List SSeg → List SSeg
  | [] => []
  | next :: rest =>
    if is_overlapped sseg.stop next.start ∧ sseg.spk = next.spk then
      mergeLoop { sseg with stop := next.stop } rest
    else
      sseg :: mergeLoop next rest

/-- merge_ssegs_same_speaker(lol): sseg = lol[0] raises IndexError on an
empty list (none); otherwise run the loop over lol[1:]. -/
def merge_ssegs_same_speaker : List SSeg → Option (List SSeg)
  | [] => none
  | first :: rest => some (mergeLoop first rest)

/-- The body of the duplicate-suppressed append of distribute_overlap:
if new_lol is empty append sseg, else append sseg only when it differs from
new_lol[-1].  new_lol is kept in reverse order (head = last appended). -/
def dupAppend (newLol : List SSeg) (sseg : SSeg) : List SSeg :=
  match newLol with
  | [] => [sseg]
  | last :: _ => if last ≠ sseg then sseg :: newLol else newLol

/-- The loop of distribute_overlap.  In the source both branches end with
sseg = next_sseg, so after the last iteration next_sseg and sseg are the
same value; the unconditional new_lol.append(next_sseg) after the loop is
therefore the final accumulator, appended when the remaining list is empty. -/
def distLoop (newLol : List SSeg) (sseg : SSeg) : List SSeg → List SSeg
  | [] => newLol.reverse ++ [sseg]
  | next :: rest =>
    if is_overlapped sseg.stop next.start then
      let overlap := sseg.stop - next.start
      let sseg' := { sseg with stop := sseg.stop - overlap / 2 }
      let next' := { next with start := next.start + overlap / 2 }
      distLoop (dupAppend newLol sseg') next' rest
    else
      distLoop (dupAppend newLol sseg) next rest

/-- distribute_overlap(lol): sseg = lol[0] raises IndexError on an empty
list; on a one-element list the loop body never runs and the final
new_lol.append(next_sseg) raises NameError because next_sseg was never
assigned; both are modelled as none. -/
def distribute_overlap : List SSeg → Option (List SSeg)
  | [] => none
  | [_] => none
  | first :: next :: rest => some (distLoop [] first (next :: rest))

/-- The composition used by do_sc: lol = merge_ssegs_same_speaker(lol)
followed by lol = distribute_overlap(lol). -/
def mergeThenDistribute (lol : List SSeg) : Option (List SSeg) :=
  (merge_ssegs_same_speaker lol).bind distribute_overlap

/-- Ordered by start time (the sort key used in do_sc). -/
def startLE (a b : SSeg) : Prop := a.start ≤ b.start

/-- Strictly increasing end times (no nested or co-terminal sub-segments;
holds for the fixed-duration sliding-window sub-segments of the recipe). -/
def endLT (a b : SSeg) : Prop := a.stop < b.stop

/-- Non-overlapping adjacent output segments. -/
def sepLE (a b : SSeg) : Prop := a.stop ≤ b.start

/-- Python int() applied to a float value: truncation toward zero.  For a
rational in lowest terms this is the T-division of the numerator by the
denominator. -/
def pyInt (q : ℚ) : ℤ :=
  q.num / (q.den : ℤ)

/-- One row of cluster_map_traverse: (child a, child b, distance). -/
abbrev MergeRow := ℚ × ℚ × ℚ

/-- The clusters dictionary of trace_back_cluster_labels.  Python keys are
the strings str(k) for integers k, so keys are modelled as integers; a
Python dict is insertion ordered, so the model is an association list with
new keys appended at the end. -/
abbrev ClusterDict := List (ℤ × List ℕ)

/-- Dictionary read clusters[k]: first matching key, none = KeyError. -/
def dictGet (k : ℤ) : ClusterDict → Option (List ℕ)
  | [] => none
  | (k', v) :: rest => if k' = k then some v else dictGet k rest

/-- Remove the first entry with key k, if any. -/
def dictErase (k : ℤ) : ClusterDict → ClusterDict
  | [] => []
  | (k', v) :: rest => if k' = k then rest else (k', v) :: dictErase k rest

/-- clusters.pop(k): KeyError (none) when k is absent. -/
def dictPop (k : ℤ) (d : ClusterDict) : Option ClusterDict :=
  match dictGet k d with
  | none => none
  | some _ => some (dictErase k d)

/-- clusters[k] = v: replace in place when k is present, else append. -/
def dictInsert (k : ℤ) (v : List ℕ) : ClusterDict → ClusterDict
  | [] => [(k, v)]
  | (k', v') :: rest =>
    if k' = k then (k, v) :: rest else (k', v') :: dictInsert k v rest

/-- One iteration of the while-loop of trace_back_cluster_labels:
a = str(int(row[0])), b = str(int(row[1])),
clusters[new_id] = clusters[a] + clusters[b] (KeyError when a or b is
absent), clusters.pop(a), clusters.pop(b) (KeyError when a = b, since the
first pop already removed the key). -/
def pyStep (row : MergeRow) (newId : ℤ) (clusters : ClusterDict) :
    Option ClusterDict :=
  let a := pyInt row.1
  let b := pyInt row.2.1
  match dictGet a clusters, dictGet b clusters with
  | some la, some lb =>
    (dictPop a (dictInsert newId (la ++ lb) clusters)).bind (dictPop b)
  | _, _ => none

/-- The while-loop of trace_back_cluster_labels over the rows of
cluster_map_traverse (the loop runs i = 0 .. N-2, which is exactly one
iteration per row since N = len(cluster_map_traverse) + 1); new_id = N + i
is threaded as an integer that increases by one per iteration.  After each
merge: if oracle_num_spkrs is truthy (nonzero) and
len(clusters) <= oracle_num_spkrs, break. -/
def traceLoop (oracle_num_spkrs : ℕ) :
    List MergeRow → ℤ → ClusterDict → Option ClusterDict
  | [], _, clusters => some clusters
  | row :: rest, newId, clusters =>
    match pyStep row newId clusters with
    | none => none
    | some clusters' =>
      if oracle_num_spkrs ≠ 0 ∧ clusters'.length ≤ oracle_num_spkrs then
        some clusters'
      else
        traceLoop oracle_num_spkrs rest (newId + 1) clusters'

/-- Initial clusters: for i in range(N): clusters[str(i)] = [i]. -/
def initClusters (N : ℕ) : ClusterDict :=
  (List.range N).map (fun (i : ℕ) => ((i : ℤ), ([i] : List ℕ)))

set_option linter.unusedVariables false in
/-- trace_back_cluster_labels(cluster_map_traverse, threshold,
oracle_num_spkrs).  N = len(cluster_map_traverse) + 1; threshold is an
unused parameter kept to mirror the source signature; oracle_num_spkrs = 0
models a falsy value (0 or None). -/
def trace_back_cluster_labels (cluster_map_traverse : List MergeRow)
    (threshold : ℚ) (oracle_num_spkrs : ℕ) : Option ClusterDict :=
  let N := cluster_map_traverse.length + 1
  traceLoop oracle_num_spkrs cluster_map_traverse (N : ℤ) (initClusters N)

/-- A merge record sequence is valid for a starting dictionary when every
step succeeds (each row names two distinct existing clusters) when run
without any early stop. -/
def validRows : List MergeRow → ℤ → ClusterDict → Bool
  | [], _, _ => true
  | row :: rest, newId, clusters =>
    match pyStep row newId clusters with
    | none => false
    | some clusters' => validRows rest (newId + 1) clusters'

/-- Validity of a full linkage sequence over N = rows.length + 1 original
indices, starting from the singleton dictionary. -/
def validLinkage (rows : List MergeRow) : Bool :=
  validRows rows ((rows.length + 1 : ℕ) : ℤ) (initClusters (rows.length + 1))

/-- The multiset of all original indices stored in a dictionary. -/
def clusterElems (d : ClusterDict) : Multiset ℕ :=
  (d.flatMap Prod.snd : List ℕ)

/-- Round half to even at integer precision, as Python round() does. -/
def roundHalfEven (x : ℚ) : ℤ :=
  let f := ⌊x⌋
  let r := x - f
  if r < 1/2 then f
  else if 1/2 < r then f + 1
  else if Even f then f else f + 1

/-- Python round(x, 4): round half to even at four decimal places. -/
def pyRound4 (x : ℚ) : ℚ :=
  (roundHalfEven (x * 10000) : ℚ) / 10000

/-- One field of an RTTM row: a literal string or a numeric value (the
source renders the number with str()). -/
inductive RttmField where
  | lit (s : String)
  | num (q : ℚ)
deriving DecidableEq

/-- The row built for one segment inside write_rttm:
["SPEAKER", rec_id, "0", str(round(seg[1], 4)),
 str(round(seg[2] - seg[1], 4)), "<NA>", "<NA>", seg[3], "<NA>", "<NA>"],
where rec_id = segs_list[0][0] is taken from the first segment of the list
and both numeric fields are computed independently from the raw start and
end values. -/
def rttmRow (rec_id : String) (seg : SSeg) : List RttmField :=
  [RttmField.lit "SPEAKER", RttmField.lit rec_id, RttmField.lit "0",
   RttmField.num (pyRound4 seg.start),
   RttmField.num (pyRound4 (seg.stop - seg.start)),
   RttmField.lit "<NA>", RttmField.lit "<NA>", RttmField.lit seg.spk,
   RttmField.lit "<NA>", RttmField.lit "<NA>"]

/-- write_rttm(segs_list, out_rttm_file): rec_id = segs_list[0][0] raises
IndexError on an empty list; otherwise one row per segment, in order. -/
def write_rttm : List SSeg → Option (List (List RttmField))
  | [] => none
  | first :: rest => some ((first :: rest).map (rttmRow first.recId))

/-- Rendering of one field, given a printer for the numeric values. -/
def renderField (showQ : ℚ → String) : RttmField → String
  | RttmField.lit s => s
  | RttmField.num q => showQ q

/-- One output line: line_str = " ".join(row), written as "%s\n" % line_str:
the fields are space-joined and the line is newline-terminated. -/
def renderLine (showQ : ℚ → String) (row : List RttmField) : String :=
  String.intercalate " " (row.map (renderField showQ)) ++ "\n"

/-- The whole RTTM file body: the concatenation of the rendered lines. -/
def rttmFileContent (showQ : ℚ → String) (rows : List (List RttmField)) :
    String :=
  String.join (rows.map (renderLine showQ))

/-- C1: for the 5 sub-segment scenario with labels [A,A,B,A,B] at
[(0,2),(1,3),(3,5),(4,6),(5,7)], the merge pass fuses (0,2)+(1,3) but drops
its final pending segment B:(5,7), returning A:(0,3), B:(3,5), A:(4,6);
the composed pipeline returns A:(0,3), B:(3,4.5), A:(4.5,6) - not the
four-segment merge output and final list stated in the claim. -/
theorem scenario_five_ssegs_eval :
    merge_ssegs_same_speaker
        [⟨"R1", 0, 2, "A"⟩, ⟨"R1", 1, 3, "A"⟩, ⟨"R1", 3, 5, "B"⟩,
         ⟨"R1", 4, 6, "A"⟩, ⟨"R1", 5, 7, "B"⟩] =
      some [⟨"R1", 0, 3, "A"⟩, ⟨"R1", 3, 5, "B"⟩, ⟨"R1", 4, 6, "A"⟩] ∧
    mergeThenDistribute
        [⟨"R1", 0, 2, "A"⟩, ⟨"R1", 1, 3, "A"⟩, ⟨"R1", 3, 5, "B"⟩,
         ⟨"R1", 4, 6, "A"⟩, ⟨"R1", 5, 7, "B"⟩] =
      some [⟨"R1", 0, 3, "A"⟩, ⟨"R1", 3, 9/2, "B"⟩, ⟨"R1", 9/2, 6, "A"⟩] ∧
    mergeThenDistribute
        [⟨"R1", 0, 2, "A"⟩, ⟨"R1", 1, 3, "A"⟩, ⟨"R1", 3, 5, "B"⟩,
         ⟨"R1", 4, 6, "A"⟩, ⟨"R1", 5, 7, "B"⟩] ≠
      some [⟨"R1", 0, 3, "A"⟩, ⟨"R1", 3, 9/2, "B"⟩, ⟨"R1", 9/2, 11/2, "A"⟩,
            ⟨"R1", 11/2, 7, "B"⟩] := by
  have h2 :
      mergeThenDistribute
          [⟨"R1", 0, 2, "A"⟩, ⟨"R1", 1, 3, "A"⟩, ⟨"R1", 3, 5, "B"⟩,
           ⟨"R1", 4, 6, "A"⟩, ⟨"R1", 5, 7, "B"⟩] =
        some [⟨"R1", 0, 3, "A"⟩, ⟨"R1", 3, 9/2, "B"⟩, ⟨"R1", 9/2, 6, "A"⟩] := by
    norm_num [mergeThenDistribute, merge_ssegs_same_speaker, mergeLoop,
      distribute_overlap, distLoop, dupAppend, is_overlapped, SSeg.mk.injEq,
      show ("A" : String) ≠ "B" from by decide,
      show ("B" : String) ≠ "A" from by decide]
  refine ⟨by decide, h2, ?_⟩
  rw [h2]
  simp

/-- C3: the merge pass is not idempotent: on the sorted list
A:(0,2), B:(3,5) it returns [A:(0,2)] (its final pending segment B:(3,5)
is dropped), and running it again on that output returns [], not the
output unchanged. -/
theorem merge_not_idempotent_eval :
    merge_ssegs_same_speaker [⟨"R1", 0, 2, "A"⟩, ⟨"R1", 3, 5, "B"⟩] =
      some [⟨"R1", 0, 2, "A"⟩] ∧
    merge_ssegs_same_speaker [⟨"R1", 0, 2, "A"⟩] = some [] ∧
    ([] : List SSeg) ≠ [⟨"R1", 0, 2, "A"⟩] := by
  decide

/-- C4: the final append of distribute_overlap flushes the last element of
its own input (the merge output), not the pending segment the merge pass
dropped: on A:(0,2), B:(3,5), C:(6,7) the merge pass returns
[A:(0,2), B:(3,5)] and the composed pipeline returns [A:(0,2), B:(3,5)];
the recording's last segment C:(6,7) is not emitted. -/
theorem pipeline_drops_last_segment_eval :
    merge_ssegs_same_speaker
        [⟨"R1", 0, 2, "A"⟩, ⟨"R1", 3, 5, "B"⟩, ⟨"R1", 6, 7, "C"⟩] =
      some [⟨"R1", 0, 2, "A"⟩, ⟨"R1", 3, 5, "B"⟩] ∧
    mergeThenDistribute
        [⟨"R1", 0, 2, "A"⟩, ⟨"R1", 3, 5, "B"⟩, ⟨"R1", 6, 7, "C"⟩] =
      some [⟨"R1", 0, 2, "A"⟩, ⟨"R1", 3, 5, "B"⟩] ∧
    (⟨"R1", 6, 7, "C"⟩ : SSeg) ∉
      [(⟨"R1", 0, 2, "A"⟩ : SSeg), ⟨"R1", 3, 5, "B"⟩] := by
  decide

/-- C9: distribute_overlap returns normally exactly when its input has at
least two elements: the empty list fails at the initial indexing lol[0],
and a one-element list fails at the final append of the never-assigned
loop variable next_sseg. -/
theorem distribute_overlap_defined_iff (lol : List SSeg) :
    (distribute_overlap lol).isSome ↔ 2 ≤ lol.length := by
  match lol with
  | [] => simp [distribute_overlap]
  | [x] => simp [distribute_overlap]
  | a :: b :: rest =>
    simp only [distribute_overlap, Option.isSome_some, List.length_cons]
    constructor
    · intro _
      omega
    · intro _
      trivial

/-- C6: whenever distribute_overlap processes an adjacent pair (cur, next)
with overlap d = cur.end - next.start >= 0, it sets the current segment's
end to cur.end - d/2 and the next segment's start to next.start + d/2, and
in exact rational arithmetic the two coincide: no gap and no overlap
remains at that boundary. -/
theorem distribute_overlap_midpoint (cur next : SSeg)
    (h : next.start ≤ cur.stop) :
    distribute_overlap [cur, next] =
      some [{ cur with stop := cur.stop - (cur.stop - next.start) / 2 },
            { next with start := next.start + (cur.stop - next.start) / 2 }] ∧
    cur.stop - (cur.stop - next.start) / 2 =
      next.start + (cur.stop - next.start) / 2 := by
  constructor
  · simp [distribute_overlap, distLoop, dupAppend, is_overlapped,
      not_lt.mpr h]
  · ring

/-- Witness for C6 at cur = B:(3,5), next = A:(4,6): overlap d = 1, the
updated boundary is 4.5 on both sides. -/
theorem distribute_overlap_midpoint_witness :
    (SSeg.mk "R1" 4 6 "A").start ≤ (SSeg.mk "R1" 3 5 "B").stop ∧
    (distribute_overlap [⟨"R1", 3, 5, "B"⟩, ⟨"R1", 4, 6, "A"⟩] =
       some [⟨"R1", 3, 5 - (5 - 4) / 2, "B"⟩, ⟨"R1", 4 + (5 - 4) / 2, 6, "A"⟩] ∧
     (5 : ℚ) - ((5 : ℚ) - 4) / 2 = 4 + ((5 : ℚ) - 4) / 2) :=
  ⟨by norm_num,
   distribute_overlap_midpoint ⟨"R1", 3, 5, "B"⟩ ⟨"R1", 4, 6, "A"⟩
     (by norm_num)⟩

/-- C2 counterexample at K = N: the single-merge linkage over N = 2
original indices is valid, yet with oracle count K = 2 the traceback
performs one merge before its count check and returns one cluster, not
K = 2 clusters. -/
theorem trace_back_K_eq_N_counterexample :
    validLinkage [((0 : ℚ), (1 : ℚ), (0 : ℚ))] = true ∧
    trace_back_cluster_labels [(0, 1, 0)] (9/10) 2 =
      some [((2 : ℤ), [0, 1])] ∧
    ([((2 : ℤ), ([0, 1] : List ℕ))] : ClusterDict).length ≠ 2 := by
  decide

/-- C5 counterexample: the input A:(0,10), B:(1,2), C:(3,4) is sorted by
start time and every segment has end > start, yet the pipeline returns
[A:(0,5.5), B:(5.5,2)] whose second segment has end < start. -/
theorem pipeline_order_counterexample :
    List.Chain' (fun a b : SSeg => a.start ≤ b.start)
      [⟨"R1", 0, 10, "A"⟩, ⟨"R1", 1, 2, "B"⟩, ⟨"R1", 3, 4, "C"⟩] ∧
    (∀ s ∈ ([⟨"R1", 0, 10, "A"⟩, ⟨"R1", 1, 2, "B"⟩,
             ⟨"R1", 3, 4, "C"⟩] : List SSeg), s.start < s.stop) ∧
    mergeThenDistribute
        [⟨"R1", 0, 10, "A"⟩, ⟨"R1", 1, 2, "B"⟩, ⟨"R1", 3, 4, "C"⟩] =
      some [⟨"R1", 0, 11/2, "A"⟩, ⟨"R1", 11/2, 2, "B"⟩] ∧
    ¬ (SSeg.mk "R1" (11/2) 2 "B").start < (SSeg.mk "R1" (11/2) 2 "B").stop := by
  refine ⟨by norm_num [List.chain'_cons], by decide, ?_, by norm_num⟩
  norm_num [mergeThenDistribute, merge_ssegs_same_speaker, mergeLoop,
    distribute_overlap, distLoop, dupAppend, is_overlapped, SSeg.mk.injEq,
    show ("A" : String) ≠ "B" from by decide,
    show ("B" : String) ≠ "C" from by decide]

/-- C8: for every non-empty segment list, write_rttm emits one
newline-terminated line per segment of exactly 10 space-joined fields:
the literal SPEAKER, the recording id of the first segment, the literal 0,
the start time rounded to 4 decimals, the duration round(end - start, 4)
computed from the raw values independently of the rounded start, two NA
placeholders, the speaker label, and two NA placeholders. -/
theorem write_rttm_format (first : SSeg) (rest : List SSeg) :
    ∃ rows, write_rttm (first :: rest) = some rows ∧
      rows.length = (first :: rest).length ∧
      (∀ row ∈ rows, row.length = 10) ∧
      rows = (first :: rest).map (fun seg =>
        [RttmField.lit "SPEAKER", RttmField.lit first.recId,
         RttmField.lit "0", RttmField.num (pyRound4 seg.start),
         RttmField.num (pyRound4 (seg.stop - seg.start)),
         RttmField.lit "<NA>", RttmField.lit "<NA>", RttmField.lit seg.spk,
         RttmField.lit "<NA>", RttmField.lit "<NA>"]) ∧
      (∀ showQ : ℚ → String, rttmFileContent showQ rows =
        String.join (rows.map (fun row =>
          String.intercalate " " (row.map (renderField showQ)) ++ "\n"))) := by
  refine ⟨(first :: rest).map (rttmRow first.recId), rfl, by simp, ?_, ?_, ?_⟩
  · intro row hrow
    rcases List.mem_map.mp hrow with ⟨seg, _, rfl⟩
    rfl
  · rfl
  · intro showQ
    rfl

theorem clusterElems_nil : clusterElems [] = 0 := rfl

theorem clusterElems_cons (p : ℤ × List ℕ) (d : ClusterDict) :
    clusterElems (p :: d) = (p.2 : Multiset ℕ) + clusterElems d := by
  simp [clusterElems]

theorem clusterElems_append (d e : ClusterDict) :
    clusterElems (d ++ e) = clusterElems d + clusterElems e := by
  simp [clusterElems]

theorem dictGet_mem {k : ℤ} {v : List ℕ} :
    ∀ {d : ClusterDict}, dictGet k d = some v → (k, v) ∈ d := by
  intro d
  induction d with
  | nil => intro h; simp [dictGet] at h
  | cons p rest ih =>
    obtain ⟨k', v'⟩ := p
    intro h
    simp only [dictGet] at h
    by_cases hk : k' = k
    · rw [if_pos hk] at h
      obtain rfl := Option.some.inj h
      subst hk
      exact List.mem_cons_self _ _
    · rw [if_neg hk] at h
      exact List.mem_cons_of_mem _ (ih h)

theorem dictGet_eq_none_iff {k : ℤ} :
    ∀ {d : ClusterDict}, dictGet k d = none ↔ k ∉ d.map Prod.fst := by
  intro d
  induction d with
  | nil => simp [dictGet]
  | cons p rest ih =>
    obtain ⟨k', v'⟩ := p
    simp only [dictGet, List.map_cons, List.mem_cons]
    by_cases hk : k' = k
    · subst hk
      simp
    · rw [if_neg hk, ih]
      constructor
      · intro h hor
        rcases hor with hEq | hmem
        · exact hk hEq.symm
        · exact h hmem
      · intro h hmem
        exact h (Or.inr hmem)

theorem dictGet_append_left {k : ℤ} {v : List ℕ} :
    ∀ {d : ClusterDict} (e : ClusterDict),
      dictGet k d = some v → dictGet k (d ++ e) = some v := by
  intro d
  induction d with
  | nil => intro e h; simp [dictGet] at h
  | cons p rest ih =>
    obtain ⟨k', v'⟩ := p
    intro e h
    simp only [dictGet] at h ⊢
    by_cases hk : k' = k
    · rwa [if_pos hk] at h ⊢
    · rw [if_neg hk] at h ⊢
      exact ih e h

theorem dictInsert_fresh {k : ℤ} (v : List ℕ) :
    ∀ {d : ClusterDict}, k ∉ d.map Prod.fst →
      dictInsert k v d = d ++ [(k, v)] := by
  intro d
  induction d with
  | nil => intro _; rfl
  | cons p rest ih =>
    obtain ⟨k', v'⟩ := p
    intro h
    simp only [List.map_cons, List.mem_cons] at h
    push_neg at h
    simp only [dictInsert, List.cons_append]
    rw [if_neg (fun hEq : k' = k => h.1 hEq.symm), ih h.2]

theorem dictErase_sublist (k : ℤ) :
    ∀ d : ClusterDict, (dictErase k d).Sublist d := by
  intro d
  induction d with
  | nil => exact List.Sublist.refl _
  | cons p rest ih =>
    obtain ⟨k', v'⟩ := p
    simp only [dictErase]
    by_cases hk : k' = k
    · rw [if_pos hk]
      exact List.sublist_cons_self _ _
    · rw [if_neg hk]
      exact ih.cons₂ _

theorem dictErase_length {k : ℤ} {v : List ℕ} :
    ∀ {d : ClusterDict}, dictGet k d = some v →
      (dictErase k d).length + 1 = d.length := by
  intro d
  induction d with
  | nil => intro h; simp [dictGet] at h
  | cons p rest ih =>
    obtain ⟨k', v'⟩ := p
    intro h
    simp only [dictGet] at h
    simp only [dictErase, List.length_cons]
    by_cases hk : k' = k
    · rw [if_pos hk]
    · rw [if_neg hk] at h ⊢
      simp only [List.length_cons]
      rw [← ih h]

theorem clusterElems_erase {k : ℤ} {v : List ℕ} :
    ∀ {d : ClusterDict}, dictGet k d = some v →
      clusterElems d = (v : Multiset ℕ) + clusterElems (dictErase k d) := by
  intro d
  induction d with
  | nil => intro h; simp [dictGet] at h
  | cons p rest ih =>
    obtain ⟨k', v'⟩ := p
    intro h
    simp only [dictGet] at h
    simp only [dictErase]
    by_cases hk : k' = k
    · rw [if_pos hk] at h
      rw [if_pos hk]
      obtain rfl := Option.some.inj h
      rw [clusterElems_cons]
    · rw [if_neg hk] at h ⊢
      rw [clusterElems_cons, clusterElems_cons, ih h]
      exact (add_left_comm _ _ _)

theorem dictGet_erase_ne {k k' : ℤ} (hne : k' ≠ k) :
    ∀ d : ClusterDict, dictGet k' (dictErase k d) = dictGet k' d := by
  intro d
  induction d with
  | nil => rfl
  | cons p rest ih =>
    obtain ⟨k₁, v₁⟩ := p
    by_cases hk : k₁ = k
    · simp only [dictErase, if_pos hk, dictGet]
      rw [if_neg (fun hEq : k₁ = k' => hne (hEq ▸ hk))]
    · simp only [dictErase, if_neg hk, dictGet]
      by_cases hk' : k₁ = k'
      · rw [if_pos hk', if_pos hk']
      · rw [if_neg hk', if_neg hk']
        exact ih

theorem dictGet_erase_self {k : ℤ} :
    ∀ {d : ClusterDict}, (d.map Prod.fst).Nodup →
      dictGet k (dictErase k d) = none := by
  intro d
  induction d with
  | nil => intro _; rfl
  | cons p rest ih =>
    obtain ⟨k₁, v₁⟩ := p
    intro hnd
    simp only [List.map_cons, List.nodup_cons] at hnd
    simp only [dictErase]
    by_cases hk : k₁ = k
    · rw [if_pos hk]
      rw [dictGet_eq_none_iff]
      rw [← hk]
      exact hnd.1
    · rw [if_neg hk]
      simp only [dictGet]
      rw [if_neg hk]
      exact ih hnd.2

theorem dictPop_eq_of_get {k : ℤ} {v : List ℕ} {d : ClusterDict}
    (h : dictGet k d = some v) : dictPop k d = some (dictErase k d) := by
  unfold dictPop
  rw [h]

theorem pyStep_spec {row : MergeRow} {newId : ℤ} {c c' : ClusterDict}
    (hstep : pyStep row newId c = some c')
    (hbound : ∀ k ∈ c.map Prod.fst, k < newId)
    (hnodup : (c.map Prod.fst).Nodup) :
    c'.length + 1 = c.length ∧
    clusterElems c' = clusterElems c ∧
    (∀ k ∈ c'.map Prod.fst, k < newId + 1) ∧
    (c'.map Prod.fst).Nodup ∧
    ((∀ p ∈ c, p.2 ≠ []) → ∀ p ∈ c', p.2 ≠ []) := by
  rcases hga : dictGet (pyInt row.1) c with _ | la
  · rcases hgb : dictGet (pyInt row.2.1) c with _ | lb <;>
      simp only [pyStep, hga, hgb] at hstep <;> cases hstep
  rcases hgb : dictGet (pyInt row.2.1) c with _ | lb
  · simp only [pyStep, hga, hgb] at hstep
    cases hstep
  simp only [pyStep, hga, hgb] at hstep
  have hfresh : newId ∉ c.map Prod.fst := fun hmem =>
    absurd (hbound _ hmem) (lt_irrefl newId)
  rw [dictInsert_fresh _ hfresh] at hstep
  have hga' : dictGet (pyInt row.1) (c ++ [(newId, la ++ lb)]) = some la :=
    dictGet_append_left _ hga
  rw [dictPop_eq_of_get hga', Option.some_bind] at hstep
  have hnodup' : ((c ++ [(newId, la ++ lb)]).map Prod.fst).Nodup := by
    rw [List.map_append]
    refine List.Nodup.append hnodup (List.nodup_singleton _) ?_
    intro x hx hx'
    simp only [List.map_cons, List.map_nil, List.mem_singleton] at hx'
    subst hx'
    exact hfresh hx
  have hba : pyInt row.2.1 ≠ pyInt row.1 := by
    intro hEq
    rw [hEq] at hstep
    unfold dictPop at hstep
    rw [dictGet_erase_self hnodup'] at hstep
    simp at hstep
  have hgb₁ : dictGet (pyInt row.2.1)
      (dictErase (pyInt row.1) (c ++ [(newId, la ++ lb)])) = some lb := by
    rw [dictGet_erase_ne hba]
    exact dictGet_append_left _ hgb
  rw [dictPop_eq_of_get hgb₁] at hstep
  have hc' : c' =
      dictErase (pyInt row.2.1)
        (dictErase (pyInt row.1) (c ++ [(newId, la ++ lb)])) :=
    (Option.some.inj hstep).symm
  subst hc'
  have hlen1 := dictErase_length hgb₁
  have hlen2 := dictErase_length hga'
  have hlen3 : (c ++ [(newId, la ++ lb)]).length = c.length + 1 := by simp
  have hsub :
      List.Sublist
        (dictErase (pyInt row.2.1)
          (dictErase (pyInt row.1) (c ++ [(newId, la ++ lb)])))
        (c ++ [(newId, la ++ lb)]) :=
    (dictErase_sublist _ _).trans (dictErase_sublist _ _)
  refine ⟨by omega, ?_, ?_, ?_, ?_⟩
  · have he1 := clusterElems_erase hga'
    have he2 := clusterElems_erase hgb₁
    have he3 : clusterElems (c ++ [(newId, la ++ lb)]) =
        clusterElems c + ((la : Multiset ℕ) + (lb : Multiset ℕ)) := by
      rw [clusterElems_append, clusterElems_cons, clusterElems_nil]
      simp
    have key : ((la : Multiset ℕ) + (lb : Multiset ℕ)) +
        clusterElems (dictErase (pyInt row.2.1)
          (dictErase (pyInt row.1) (c ++ [(newId, la ++ lb)]))) =
        ((la : Multiset ℕ) + (lb : Multiset ℕ)) + clusterElems c := by
      rw [add_assoc, ← he2, ← he1, he3]
      exact add_comm _ _
    exact add_left_cancel key
  · intro k hk
    have hk' : k ∈ (c ++ [(newId, la ++ lb)]).map Prod.fst :=
      (hsub.map Prod.fst).subset hk
    rw [List.map_append] at hk'
    rcases List.mem_append.mp hk' with h | h
    · exact (hbound k h).trans (lt_add_one newId)
    · simp only [List.map_cons, List.map_nil, List.mem_singleton] at h
      subst h
      exact lt_add_one k
  · exact hnodup'.sublist (hsub.map Prod.fst)
  · intro hne p hp
    rcases List.mem_append.mp (hsub.subset hp) with h | h
    · exact hne p h
    · have hla : (pyInt row.1, la) ∈ c := dictGet_mem hga
      have hlane : la ≠ [] := hne _ hla
      simp only [List.mem_singleton] at h
      subst h
      simp [hlane]

theorem traceLoop_reach (K : ℕ) :
    ∀ (rows : List MergeRow) (c : ClusterDict) (newId : ℤ),
      validRows rows newId c = true →
      (∀ k ∈ c.map Prod.fst, k < newId) →
      (c.map Prod.fst).Nodup →
      (∀ p ∈ c, p.2 ≠ []) →
      1 ≤ K → K < c.length → c.length ≤ K + rows.length →
      ∃ out, traceLoop K rows newId c = some out ∧ out.length = K ∧
        clusterElems out = clusterElems c ∧ (∀ p ∈ out, p.2 ≠ []) := by
  intro rows
  induction rows with
  | nil =>
    intro c newId _ _ _ _ _ hlt hle
    simp only [List.length_nil, Nat.add_zero] at hle
    exact absurd hlt (by omega)
  | cons row rest ih =>
    intro c newId hval hbound hnodup hne hK hlt hle
    rcases hstep : pyStep row newId c with _ | c₁
    · simp [validRows, hstep] at hval
    simp only [validRows, hstep] at hval
    obtain ⟨hlen, helems, hbound', hnodup', hne'⟩ :=
      pyStep_spec hstep hbound hnodup
    simp only [traceLoop, hstep]
    simp only [List.length_cons] at hle
    by_cases hbrk : K ≠ 0 ∧ c₁.length ≤ K
    · rw [if_pos hbrk]
      refine ⟨c₁, rfl, ?_, helems, hne' hne⟩
      omega
    · rw [if_neg hbrk]
      have hKne : K ≠ 0 := by omega
      have hc₁K : ¬ c₁.length ≤ K := fun h => hbrk ⟨hKne, h⟩
      obtain ⟨out, hout, h1, h2, h3⟩ :=
        ih c₁ (newId + 1) hval hbound' hnodup' (hne' hne) hK (by omega)
          (by omega)
      exact ⟨out, hout, h1, h2.trans helems, h3⟩

theorem traceLoop_zero_total :
    ∀ (rows : List MergeRow) (c : ClusterDict) (newId : ℤ),
      validRows rows newId c = true →
      (∀ k ∈ c.map Prod.fst, k < newId) →
      (c.map Prod.fst).Nodup →
      (∀ p ∈ c, p.2 ≠ []) →
      ∃ out, traceLoop 0 rows newId c = some out ∧
        out.length + rows.length = c.length ∧
        clusterElems out = clusterElems c ∧ (∀ p ∈ out, p.2 ≠ []) := by
  intro rows
  induction rows with
  | nil =>
    intro c newId _ _ _ hne
    exact ⟨c, rfl, by simp, rfl, hne⟩
  | cons row rest ih =>
    intro c newId hval hbound hnodup hne
    rcases hstep : pyStep row newId c with _ | c₁
    · simp [validRows, hstep] at hval
    simp only [validRows, hstep] at hval
    obtain ⟨hlen, helems, hbound', hnodup', hne'⟩ :=
      pyStep_spec hstep hbound hnodup
    simp only [traceLoop, hstep]
    rw [if_neg (by simp)]
    obtain ⟨out, hout, h1, h2, h3⟩ :=
      ih c₁ (newId + 1) hval hbound' hnodup' (hne' hne)
    refine ⟨out, hout, ?_, h2.trans helems, h3⟩
    simp only [List.length_cons]
    omega

theorem flatMap_singleton_pairs (l : List ℕ) :
    ((l.map (fun i : ℕ => ((i : ℤ), ([i] : List ℕ)))).flatMap Prod.snd) = l := by
  induction l with
  | nil => rfl
  | cons a t ih => simp [ih]

theorem clusterElems_init (N : ℕ) :
    clusterElems (initClusters N) = Multiset.range N := by
  unfold clusterElems initClusters
  rw [flatMap_singleton_pairs]
  rfl

theorem initClusters_keys (N : ℕ) :
    (initClusters N).map Prod.fst = (List.range N).map (fun i : ℕ => (i : ℤ)) := by
  simp [initClusters, List.map_map]

theorem initClusters_bound (N : ℕ) :
    ∀ k ∈ (initClusters N).map Prod.fst, k < ((N : ℕ) : ℤ) := by
  intro k hk
  rw [initClusters_keys] at hk
  obtain ⟨i, hi, rfl⟩ := List.mem_map.mp hk
  exact_mod_cast List.mem_range.mp hi

theorem initClusters_nodup (N : ℕ) :
    ((initClusters N).map Prod.fst).Nodup := by
  rw [initClusters_keys]
  exact (List.nodup_range N).map (fun a b h => by exact_mod_cast h)

theorem initClusters_nonempty (N : ℕ) :
    ∀ p ∈ initClusters N, p.2 ≠ [] := by
  intro p hp
  obtain ⟨i, _, rfl⟩ := List.mem_map.mp hp
  simp

theorem initClusters_length (N : ℕ) : (initClusters N).length = N := by
  simp [initClusters]

/-- C2 (amended): for every valid linkage merge sequence over
N = rows.length + 1 original indices and every oracle count K with
N > K >= 1, the traceback returns exactly K non-empty clusters whose index
lists together contain each original index exactly once. -/
theorem trace_back_partition (rows : List MergeRow) (t : ℚ) (K : ℕ)
    (hval : validLinkage rows = true) (hK1 : 1 ≤ K)
    (hKN : K < rows.length + 1) :
    ∃ c, trace_back_cluster_labels rows t K = some c ∧
      c.length = K ∧ (∀ p ∈ c, p.2 ≠ []) ∧
      clusterElems c = Multiset.range (rows.length + 1) := by
  obtain ⟨out, hout, h1, h2, h3⟩ :=
    traceLoop_reach K rows (initClusters (rows.length + 1))
      ((rows.length + 1 : ℕ) : ℤ) hval
      (initClusters_bound (rows.length + 1))
      (initClusters_nodup (rows.length + 1))
      (initClusters_nonempty (rows.length + 1)) hK1
      (by rw [initClusters_length]; exact hKN)
      (by rw [initClusters_length]; omega)
  exact ⟨out, hout, h1, h3, h2.trans (clusterElems_init (rows.length + 1))⟩

/-- Witness for C2 at the valid two-merge linkage over N = 3 indices with
K = 1. -/
theorem trace_back_partition_witness :
    validLinkage [((0:ℚ), (1:ℚ), (1:ℚ)), ((2:ℚ), (3:ℚ), (2:ℚ))] = true ∧
    1 ≤ 1 ∧
    1 < [((0:ℚ), (1:ℚ), (1:ℚ)), ((2:ℚ), (3:ℚ), (2:ℚ))].length + 1 ∧
    ∃ c, trace_back_cluster_labels
        [((0:ℚ), (1:ℚ), (1:ℚ)), ((2:ℚ), (3:ℚ), (2:ℚ))] (9/10) 1 = some c ∧
      c.length = 1 ∧ (∀ p ∈ c, p.2 ≠ []) ∧
      clusterElems c = Multiset.range
        ([((0:ℚ), (1:ℚ), (1:ℚ)), ((2:ℚ), (3:ℚ), (2:ℚ))].length + 1) :=
  ⟨by decide, le_refl 1, by decide,
   trace_back_partition [((0:ℚ), (1:ℚ), (1:ℚ)), ((2:ℚ), (3:ℚ), (2:ℚ))]
     (9/10) 1 (by decide) (le_refl 1) (by decide)⟩

/-- C7: when oracle_num_spkrs is falsy (0 or None), no early stop occurs:
for every valid merge record sequence over N original indices all N-1
merges are applied and the result is a single cluster containing all N
original indices. -/
theorem trace_back_falsy_K_single_cluster (rows : List MergeRow) (t : ℚ)
    (hval : validLinkage rows = true) :
    ∃ k l, trace_back_cluster_labels rows t 0 = some [(k, l)] ∧
      (l : Multiset ℕ) = Multiset.range (rows.length + 1) := by
  obtain ⟨out, hout, h1, h2, _⟩ :=
    traceLoop_zero_total rows (initClusters (rows.length + 1))
      ((rows.length + 1 : ℕ) : ℤ) hval
      (initClusters_bound (rows.length + 1))
      (initClusters_nodup (rows.length + 1))
      (initClusters_nonempty (rows.length + 1))
  rw [initClusters_length] at h1
  have hout1 : out.length = 1 := by omega
  obtain ⟨p, rfl⟩ : ∃ p, out = [p] := by
    match out, hout1 with
    | [p], _ => exact ⟨p, rfl⟩
  refine ⟨p.1, p.2, ?_, ?_⟩
  · exact hout
  · have hp : clusterElems [p] = (p.2 : Multiset ℕ) := by
      simp [clusterElems]
    rw [← hp, h2, clusterElems_init]

/-- Witness for C7 at the valid two-merge linkage over N = 3 indices. -/
theorem trace_back_falsy_K_witness :
    validLinkage [((0:ℚ), (1:ℚ), (1:ℚ)), ((2:ℚ), (3:ℚ), (2:ℚ))] = true ∧
    ∃ k l, trace_back_cluster_labels
        [((0:ℚ), (1:ℚ), (1:ℚ)), ((2:ℚ), (3:ℚ), (2:ℚ))] (9/10) 0 =
          some [(k, l)] ∧
      (l : Multiset ℕ) = Multiset.range
        ([((0:ℚ), (1:ℚ), (1:ℚ)), ((2:ℚ), (3:ℚ), (2:ℚ))].length + 1) :=
  ⟨by decide,
   trace_back_falsy_K_single_cluster
     [((0:ℚ), (1:ℚ), (1:ℚ)), ((2:ℚ), (3:ℚ), (2:ℚ))] (9/10) (by decide)⟩

theorem traceLoop_agree (K : ℕ) :
    ∀ {rows₁ rows₂ : List MergeRow},
      List.Forall₂ (fun r s : MergeRow => r.1 = s.1 ∧ r.2.1 = s.2.1)
        rows₁ rows₂ →
      ∀ (newId : ℤ) (c : ClusterDict),
        traceLoop K rows₁ newId c = traceLoop K rows₂ newId c := by
  intro rows₁ rows₂ h
  induction h with
  | nil => intro newId c; rfl
  | @cons a b l₁ l₂ hr _ ih =>
    intro newId c
    have hps : pyStep a newId c = pyStep b newId c := by
      unfold pyStep
      rw [hr.1, hr.2]
    simp only [traceLoop, hps]
    rcases pyStep b newId c with _ | c₁
    · rfl
    · dsimp only
      by_cases hbrk : K ≠ 0 ∧ c₁.length ≤ K
      · rw [if_pos hbrk, if_pos hbrk]
      · rw [if_neg hbrk, if_neg hbrk]
        exact ih (newId + 1) c₁

/-- C10: the threshold argument and the distance column of the merge
records are ignored: two calls that differ only in the threshold or only
in the distance column return the same cluster dictionary. -/
theorem trace_back_ignores_threshold_and_distance
    (rows₁ rows₂ : List MergeRow) (t₁ t₂ : ℚ) (K : ℕ)
    (h : List.Forall₂ (fun r s : MergeRow => r.1 = s.1 ∧ r.2.1 = s.2.1)
      rows₁ rows₂) :
    trace_back_cluster_labels rows₁ t₁ K =
      trace_back_cluster_labels rows₂ t₂ K := by
  unfold trace_back_cluster_labels
  rw [h.length_eq]
  exact traceLoop_agree K h _ _

/-- Witness for C10: same merge pair, different threshold and distance. -/
theorem trace_back_ignores_witness :
    List.Forall₂ (fun r s : MergeRow => r.1 = s.1 ∧ r.2.1 = s.2.1)
      [((0:ℚ), (1:ℚ), (5:ℚ))] [((0:ℚ), (1:ℚ), (7:ℚ))] ∧
    trace_back_cluster_labels [((0:ℚ), (1:ℚ), (5:ℚ))] (9/10) 4 =
      trace_back_cluster_labels [((0:ℚ), (1:ℚ), (7:ℚ))] (1/2) 4 :=
  ⟨List.Forall₂.cons ⟨rfl, rfl⟩ List.Forall₂.nil,
   trace_back_ignores_threshold_and_distance
     [((0:ℚ), (1:ℚ), (5:ℚ))] [((0:ℚ), (1:ℚ), (7:ℚ))] (9/10) (1/2) 4
     (List.Forall₂.cons ⟨rfl, rfl⟩ List.Forall₂.nil)⟩

theorem is_overlapped_iff (e s : ℚ) : is_overlapped e s = true ↔ s ≤ e := by
  unfold is_overlapped
  by_cases h : s > e
  · rw [if_pos h]
    simp [not_le.mpr h]
  · rw [if_neg h]
    simp [not_lt.mp h]

theorem mergeLoop_mem_bounds :
    ∀ (rest : List SSeg) (sseg : SSeg),
      List.Chain' startLE (sseg :: rest) →
      List.Chain' endLT (sseg :: rest) →
      ∀ x ∈ mergeLoop sseg rest, sseg.start ≤ x.start ∧ sseg.stop ≤ x.stop := by
  intro rest
  induction rest with
  | nil =>
    intro sseg _ _ x hx
    simp [mergeLoop] at hx
  | cons next rest' ih =>
    intro sseg h1 h2 x hx
    obtain ⟨h1ab, h1tail⟩ := List.chain'_cons.mp h1
    obtain ⟨h2ab, h2tail⟩ := List.chain'_cons.mp h2
    simp only [mergeLoop] at hx
    by_cases hcond : is_overlapped sseg.stop next.start ∧ sseg.spk = next.spk
    · rw [if_pos hcond] at hx
      have hch1 : List.Chain' startLE ({sseg with stop := next.stop} :: rest') := by
        rcases List.chain'_cons'.mp h1tail with ⟨hhead, htail⟩
        exact List.chain'_cons'.mpr
          ⟨fun h hh => le_trans h1ab (hhead h hh), htail⟩
      have hch2 : List.Chain' endLT ({sseg with stop := next.stop} :: rest') := by
        rcases List.chain'_cons'.mp h2tail with ⟨hhead, htail⟩
        exact List.chain'_cons'.mpr ⟨fun h hh => hhead h hh, htail⟩
      obtain ⟨hx1, hx2⟩ := ih _ hch1 hch2 x hx
      exact ⟨hx1, le_trans (le_of_lt h2ab) hx2⟩
    · rw [if_neg hcond] at hx
      rcases List.mem_cons.mp hx with rfl | hx'
      · exact ⟨le_refl _, le_refl _⟩
      · obtain ⟨hx1, hx2⟩ := ih next h1tail h2tail x hx'
        exact ⟨le_trans h1ab hx1, le_trans (le_of_lt h2ab) hx2⟩

theorem mergeLoop_invariants :
    ∀ (rest : List SSeg) (sseg : SSeg),
      List.Chain' startLE (sseg :: rest) →
      List.Chain' endLT (sseg :: rest) →
      (∀ s ∈ sseg :: rest, s.start < s.stop) →
      List.Chain' startLE (mergeLoop sseg rest) ∧
      List.Chain' endLT (mergeLoop sseg rest) ∧
      (∀ s ∈ mergeLoop sseg rest, s.start < s.stop) := by
  intro rest
  induction rest with
  | nil =>
    intro sseg _ _ _
    simp [mergeLoop]
  | cons next rest' ih =>
    intro sseg h1 h2 h3
    obtain ⟨h1ab, h1tail⟩ := List.chain'_cons.mp h1
    obtain ⟨h2ab, h2tail⟩ := List.chain'_cons.mp h2
    simp only [mergeLoop]
    by_cases hcond : is_overlapped sseg.stop next.start ∧ sseg.spk = next.spk
    · rw [if_pos hcond]
      have hch1 : List.Chain' startLE ({sseg with stop := next.stop} :: rest') := by
        rcases List.chain'_cons'.mp h1tail with ⟨hhead, htail⟩
        exact List.chain'_cons'.mpr
          ⟨fun h hh => le_trans h1ab (hhead h hh), htail⟩
      have hch2 : List.Chain' endLT ({sseg with stop := next.stop} :: rest') := by
        rcases List.chain'_cons'.mp h2tail with ⟨hhead, htail⟩
        exact List.chain'_cons'.mpr ⟨fun h hh => hhead h hh, htail⟩
      have hch3 : ∀ s ∈ {sseg with stop := next.stop} :: rest', s.start < s.stop := by
        intro s hs
        rcases List.mem_cons.mp hs with rfl | hs'
        · exact lt_of_le_of_lt h1ab (h3 next (by simp))
        · exact h3 s (by simp [hs'])
      exact ih _ hch1 hch2 hch3
    · rw [if_neg hcond]
      obtain ⟨hc1, hc2, hc3⟩ :=
        ih next h1tail h2tail (fun s hs => h3 s (List.mem_cons_of_mem _ hs))
      have hmem := mergeLoop_mem_bounds rest' next h1tail h2tail
      refine ⟨?_, ?_, ?_⟩
      · refine List.chain'_cons'.mpr ⟨?_, hc1⟩
        intro h hh
        exact le_trans h1ab (hmem h (List.mem_of_mem_head? hh)).1
      · refine List.chain'_cons'.mpr ⟨?_, hc2⟩
        intro h hh
        exact lt_of_lt_of_le h2ab (hmem h (List.mem_of_mem_head? hh)).2
      · intro s hs
        rcases List.mem_cons.mp hs with rfl | hs'
        · exact h3 s (by simp)
        · exact hc3 s hs'

theorem dupAppend_head (R : List SSeg) (s : SSeg) :
    (dupAppend R s).head? = some s := by
  match R with
  | [] => rfl
  | last :: R' =>
    simp only [dupAppend]
    by_cases h : last ≠ s
    · rw [if_pos h]
      rfl
    · rw [if_neg h]
      push_neg at h
      rw [h]
      rfl

theorem dupAppend_chain {R : List SSeg} {s : SSeg}
    (hA : List.Chain' (fun x y => sepLE y x) R)
    (hC : ∀ h ∈ R.head?, h.stop ≤ s.start) :
    List.Chain' (fun x y => sepLE y x) (dupAppend R s) := by
  match R with
  | [] => exact List.chain'_singleton s
  | last :: R' =>
    simp only [dupAppend]
    by_cases h : last ≠ s
    · rw [if_pos h]
      exact List.chain'_cons.mpr ⟨hC last rfl, hA⟩
    · rw [if_neg h]
      exact hA

theorem dupAppend_proper {R : List SSeg} {s : SSeg}
    (hB : ∀ x ∈ R, x.start < x.stop) (hs : s.start < s.stop) :
    ∀ x ∈ dupAppend R s, x.start < x.stop := by
  intro x hx
  match R with
  | [] =>
    simp only [dupAppend, List.mem_singleton] at hx
    subst hx
    exact hs
  | last :: R' =>
    simp only [dupAppend] at hx
    by_cases h : last ≠ s
    · rw [if_pos h] at hx
      rcases List.mem_cons.mp hx with rfl | hx'
      · exact hs
      · exact hB x hx'
    · rw [if_neg h] at hx
      exact hB x hx

theorem distLoop_spec :
    ∀ (l : List SSeg) (R : List SSeg) (cur : SSeg),
      List.Chain' startLE l →
      List.Chain' endLT (cur :: l) →
      (∀ s ∈ l, s.start < s.stop) →
      cur.start < cur.stop →
      (∀ h ∈ l.head?, 2 * cur.start < cur.stop + h.start) →
      List.Chain' (fun x y => sepLE y x) R →
      (∀ s ∈ R, s.start < s.stop) →
      (∀ h ∈ R.head?, h.stop ≤ cur.start) →
      List.Chain' sepLE (distLoop R cur l) ∧
      (∀ s ∈ distLoop R cur l, s.start < s.stop) := by
  intro l
  induction l with
  | nil =>
    intro R cur _ _ _ hG4 _ hA hB hC
    simp only [distLoop]
    constructor
    · refine List.chain'_append.mpr ⟨List.chain'_reverse.mpr hA,
        List.chain'_singleton cur, ?_⟩
      intro x hx y hy
      simp only [List.head?_cons, Option.mem_def, Option.some.injEq] at hy
      subst hy
      rw [List.getLast?_reverse] at hx
      exact hC x hx
    · intro s hs
      rcases List.mem_append.mp hs with hs' | hs'
      · exact hB s (List.mem_reverse.mp hs')
      · simp only [List.mem_singleton] at hs'
        subst hs'
        exact hG4
  | cons next rest ih =>
    intro R cur hG1 hG2 hG3 hG4 hG5 hA hB hC
    obtain ⟨hstart_head, hG1tail⟩ := List.chain'_cons'.mp hG1
    obtain ⟨hend_cn, hG2tail⟩ := List.chain'_cons.mp hG2
    obtain ⟨hend_head, _⟩ := List.chain'_cons'.mp hG2tail
    have hnext_proper : next.start < next.stop := hG3 next (by simp)
    have hG5next : 2 * cur.start < cur.stop + next.start := hG5 next rfl
    simp only [distLoop]
    by_cases hov : is_overlapped cur.stop next.start = true
    · rw [if_pos hov]
      have hovle : next.start ≤ cur.stop := (is_overlapped_iff _ _).mp hov
      apply ih
      · exact hG1tail
      · refine List.chain'_cons'.mpr ⟨?_, (List.chain'_cons'.mp hG2tail).2⟩
        intro h hh
        exact hend_head h hh
      · exact fun s hs => hG3 s (List.mem_cons_of_mem _ hs)
      · show next.start + (cur.stop - next.start) / 2 < next.stop
        unfold endLT at hend_cn
        linarith
      · intro h hh
        show 2 * (next.start + (cur.stop - next.start) / 2) <
          next.stop + h.start
        have hsh : next.start ≤ h.start := hstart_head h hh
        unfold endLT at hend_cn
        linarith
      · apply dupAppend_chain hA
        intro h hh
        exact hC h hh
      · apply dupAppend_proper hB
        show cur.start < cur.stop - (cur.stop - next.start) / 2
        linarith
      · intro h hh
        rw [dupAppend_head] at hh
        simp only [Option.mem_def, Option.some.injEq] at hh
        subst hh
        show cur.stop - (cur.stop - next.start) / 2 ≤
          next.start + (cur.stop - next.start) / 2
        linarith
    · rw [if_neg hov]
      have hlt : cur.stop < next.start := by
        by_contra hcon
        exact hov ((is_overlapped_iff _ _).mpr (not_lt.mp hcon))
      apply ih
      · exact hG1tail
      · exact hG2tail
      · exact fun s hs => hG3 s (List.mem_cons_of_mem _ hs)
      · exact hnext_proper
      · intro h hh
        have hsh : next.start ≤ h.start := hstart_head h hh
        linarith
      · apply dupAppend_chain hA
        intro h hh
        exact hC h hh
      · exact dupAppend_proper hB hG4
      · intro h hh
        rw [dupAppend_head] at hh
        simp only [Option.mem_def, Option.some.injEq] at hh
        subst hh
        exact le_of_lt hlt

/-- C5 (amended): for every per-recording segment list sorted by start
time, with end > start for every segment, and with strictly increasing end
times (no sub-segment nested in or co-terminal with an earlier one, as
holds for fixed-duration sliding windows), whenever the merge pass
followed by the overlap-redistribution pass returns an output, that output
is fully ordered and non-overlapping in exact arithmetic
(adjacent cur.end <= next.start) and every output segment still satisfies
end > start. -/
theorem pipeline_ordered_of_strict_ends (lol out : List SSeg)
    (hsort : List.Chain' startLE lol)
    (hends : List.Chain' endLT lol)
    (hproper : ∀ s ∈ lol, s.start < s.stop)
    (hout : mergeThenDistribute lol = some out) :
    List.Chain' sepLE out ∧ ∀ s ∈ out, s.start < s.stop := by
  rcases lol with _ | ⟨first, rest⟩
  · simp [mergeThenDistribute, merge_ssegs_same_speaker] at hout
  simp only [mergeThenDistribute, merge_ssegs_same_speaker,
    Option.some_bind] at hout
  obtain ⟨hm1, hm2, hm3⟩ := mergeLoop_invariants rest first hsort hends hproper
  rcases hmerged : mergeLoop first rest with _ | ⟨m1, mrest⟩
  · rw [hmerged] at hout
    simp [distribute_overlap] at hout
  rcases mrest with _ | ⟨m2, mrest'⟩
  · rw [hmerged] at hout
    simp [distribute_overlap] at hout
  rw [hmerged] at hout hm1 hm2 hm3
  simp only [distribute_overlap] at hout
  have hOut : out = distLoop [] m1 (m2 :: mrest') := (Option.some.inj hout).symm
  subst hOut
  apply distLoop_spec (m2 :: mrest') [] m1
  · exact hm1.tail
  · exact hm2
  · exact fun s hs => hm3 s (List.mem_cons_of_mem _ hs)
  · exact hm3 m1 (by simp)
  · intro h hh
    simp only [List.head?_cons, Option.mem_def, Option.some.injEq] at hh
    subst hh
    have h12 : startLE m1 m2 := (List.chain'_cons.mp hm1).1
    have hm1p : m1.start < m1.stop := hm3 m1 (by simp)
    unfold startLE at h12
    linarith
  · exact List.chain'_nil
  · simp
  · simp

/-- Witness for C5 at the input A:(0,2), B:(1,3), C:(2.5,4): sorted starts,
strictly increasing ends, all proper; the pipeline returns
A:(0,1.5), B:(1.5,3), which is ordered, non-overlapping and proper. -/
theorem pipeline_ordered_witness :
    List.Chain' startLE
      [⟨"R1", 0, 2, "A"⟩, ⟨"R1", 1, 3, "B"⟩, ⟨"R1", 5/2, 4, "C"⟩] ∧
    List.Chain' endLT
      [⟨"R1", 0, 2, "A"⟩, ⟨"R1", 1, 3, "B"⟩, ⟨"R1", 5/2, 4, "C"⟩] ∧
    (∀ s ∈ ([⟨"R1", 0, 2, "A"⟩, ⟨"R1", 1, 3, "B"⟩,
             ⟨"R1", 5/2, 4, "C"⟩] : List SSeg), s.start < s.stop) ∧
    mergeThenDistribute
        [⟨"R1", 0, 2, "A"⟩, ⟨"R1", 1, 3, "B"⟩, ⟨"R1", 5/2, 4, "C"⟩] =
      some [⟨"R1", 0, 3/2, "A"⟩, ⟨"R1", 3/2, 3, "B"⟩] ∧
    (List.Chain' sepLE [⟨"R1", 0, 3/2, "A"⟩, ⟨"R1", 3/2, 3, "B"⟩] ∧
     ∀ s ∈ ([⟨"R1", 0, 3/2, "A"⟩, ⟨"R1", 3/2, 3, "B"⟩] : List SSeg),
       s.start < s.stop) := by
  have hpipe :
      mergeThenDistribute
          [⟨"R1", 0, 2, "A"⟩, ⟨"R1", 1, 3, "B"⟩, ⟨"R1", 5/2, 4, "C"⟩] =
        some [⟨"R1", 0, 3/2, "A"⟩, ⟨"R1", 3/2, 3, "B"⟩] := by
    norm_num [mergeThenDistribute, merge_ssegs_same_speaker, mergeLoop,
      distribute_overlap, distLoop, dupAppend, is_overlapped, SSeg.mk.injEq,
      show ("A" : String) ≠ "B" from by decide,
      show ("B" : String) ≠ "C" from by decide]
  have h1 : List.Chain' startLE
      [⟨"R1", 0, 2, "A"⟩, ⟨"R1", 1, 3, "B"⟩, ⟨"R1", 5/2, 4, "C"⟩] := by
    norm_num [List.chain'_cons, startLE]
  have h2 : List.Chain' endLT
      [⟨"R1", 0, 2, "A"⟩, ⟨"R1", 1, 3, "B"⟩, ⟨"R1", 5/2, 4, "C"⟩] := by
    norm_num [List.chain'_cons, endLT]
  have h3 : ∀ s ∈ ([⟨"R1", 0, 2, "A"⟩, ⟨"R1", 1, 3, "B"⟩,
      ⟨"R1", 5/2, 4, "C"⟩] : List SSeg), s.start < s.stop := by
    intro s hs
    simp only [List.mem_cons, List.not_mem_nil, or_false] at hs
    rcases hs with rfl | rfl | rfl <;> norm_num
  exact ⟨h1, h2, h3, hpipe,
    pipeline_ordered_of_strict_ends _ _ h1 h2 h3 hpipe⟩
